import Mathlib

/-!
Shallow embedding of `python/tk_multi_workfiles/entity_tree/entity_tree_form.py`
(class `EntityTreeForm`): an entity tree widget over a filtered hierarchical
model, tracking selection, expansion and breadcrumb state.

Conventions of the embedding:
* Shotgun entities (Python dicts) become the inductive `Entity`; identity is
  `(etype, eid)`.
* Model items (`QStandardItem`) become `Node`; Python object identity (used by
  `weakref.ref` and `id(...)`) is modelled by the `nid` field.
* Qt model indexes are represented by the id of the source item they resolve
  to; an *invalid* index is `none`.
* The mutable widget (`self`) becomes the structure `Widget`; each slot or
  method becomes a pure function from `Widget` to `Widget`.
* Code of this repository that is not under `src/` (the proxy model
  `EntityTreeProxyModel`, the framework's `ShotgunEntityModel`) is modelled
  from the spec; such definitions say so in their doc comment.
-/

/-- A Shotgun entity: a dict with at least `type` and `id`, and the
type-specific fields this widget reads: `name`, `content` (Task name),
`entity` (a Task's linked entity, field `link` here) and `step`. -/
inductive Entity : Type where
  | mk (etype : String) (eid : Int) (name : Option String) (content : Option String)
       (link : Option Entity) (step : Option Entity) : Entity

def Entity.etype : Entity → String
  | .mk t _ _ _ _ _ => t

def Entity.eid : Entity → Int
  | .mk _ i _ _ _ _ => i

def Entity.name : Entity → Option String
  | .mk _ _ n _ _ _ => n

def Entity.content : Entity → Option String
  | .mk _ _ _ c _ _ => c

/-- The Task's `entity` field (`entity.get("entity")`). -/
def Entity.link : Entity → Option Entity
  | .mk _ _ _ _ l _ => l

def Entity.step : Entity → Option Entity
  | .mk _ _ _ _ _ s => s

/-- Python `"%s" % x` on an optional string: `None` prints as `"None"`. -/
def pyStr : Option String → String
  | none => "None"
  | some s => s

/-- The two `QRegExp` pattern syntaxes relevant here: `QRegExp.RegExp`
(the default, full regular-expression interpretation) and
`QRegExp.FixedString` (the pattern is taken literally). -/
inductive PatSyn : Type where
  | regExp : PatSyn
  | fixedString : PatSyn
deriving DecidableEq

/-- A `QtCore.QRegExp` value: pattern text, case sensitivity and pattern
syntax, as passed to `QRegExp(search_text, cs, syn)`. -/
structure QRegExp : Type where
  pattern : String
  caseInsensitive : Bool
  syn : PatSyn
deriving DecidableEq

def strLower (s : String) : List Char := s.toList.map Char.toLower

/-- Modelled from the spec: minimal regular-expression semantics ("a
text-search regular-expression filter"), enough to distinguish regex
interpretation from literal interpretation: `.` matches any one character,
every other pattern character matches itself. -/
def regexMatchHere : List Char → List Char → Bool
  | [], _ => true
  | _ :: _, [] => false
  | p :: ps, c :: cs => (p = '.' || p = c) && regexMatchHere ps cs

/-- `QRegExp.indexIn`-style search: the pattern matches somewhere in `s`. -/
def regexSearch (p : List Char) : List Char → Bool
  | [] => regexMatchHere p []
  | c :: cs => regexMatchHere p (c :: cs) || regexSearch p cs

/-- Literal substring search (`str.contains`-style): `p` occurs in `s`. -/
def substrSearch (p : List Char) : List Char → Bool
  | [] => p.isPrefixOf []
  | c :: cs => p.isPrefixOf (c :: cs) || substrSearch p cs

/-- Whether a `QRegExp` accepts a string (in the `indexIn ≥ 0` sense used by
the filter proxy): a `FixedString` pattern is sought literally as a
substring, a `RegExp` pattern is interpreted as a regular expression. -/
def qregexpAccepts (r : QRegExp) (s : String) : Bool :=
  let p := if r.caseInsensitive then strLower r.pattern else r.pattern.toList
  let t := if r.caseInsensitive then strLower s else s.toList
  match r.syn with
  | .fixedString => substrSearch p t
  | .regExp => regexSearch p t

/-- `_update_filter`: `QtCore.QRegExp(search_text, QtCore.Qt.CaseInsensitive,
QtCore.QRegExp.FixedString)` — the regexp the widget installs on the filter
model for a given search text. -/
def update_filter_regexp (search_text : String) : QRegExp :=
  { pattern := search_text, caseInsensitive := true, syn := PatSyn.fixedString }

/-- A source-model item (`QStandardItem` of the `ShotgunEntityModel`):
object identity `nid`, display text `label`, the entity resolved by
`src_model.get_entity(item)` (none for pure grouping items), the
"assigned to current user" flag consulted by the mine-only filter
(modelled from the spec, see `accepted`), and child items. -/
inductive Node : Type where
  | mk (nid : Nat) (label : String) (entity : Option Entity) (mine : Bool)
       (children : List Node) : Node

def Node.nid : Node → Nat
  | .mk i _ _ _ _ => i

def Node.label : Node → String
  | .mk _ l _ _ _ => l

def Node.entity : Node → Option Entity
  | .mk _ _ e _ _ => e

def Node.mine : Node → Bool
  | .mk _ _ _ m _ => m

def Node.children : Node → List Node
  | .mk _ _ _ _ cs => cs

mutual
/-- Resolve an item by object identity inside a subtree (first hit, depth
first).  This is how the embedding dereferences `weakref.ref(item)` and how
`itemFromIndex` resolves a stored index. -/
def nodeById : Node → Nat → Option Node
  | .mk i l e m cs, t =>
    if i = t then some (.mk i l e m cs) else nodeByIdList cs t
def nodeByIdList : List Node → Nat → Option Node
  | [], _ => none
  | c :: rest, t =>
    match nodeById c t with
    | some found => some found
    | none => nodeByIdList rest t
end

mutual
/-- Modelled from the spec: `ShotgunEntityModel.item_from_entity`
(framework code, not under `src/`) resolves the model item representing the
entity with the given type and id. -/
def item_from_entity : Node → String → Int → Option Node
  | .mk i l e m cs, t, id =>
    match e with
    | some ent =>
      if ent.etype = t ∧ ent.eid = id then some (.mk i l e m cs)
      else item_from_entity_list cs t id
    | none => item_from_entity_list cs t id
def item_from_entity_list : List Node → String → Int → Option Node
  | [], _, _ => none
  | c :: rest, t, id =>
    match item_from_entity c t id with
    | some found => some found
    | none => item_from_entity_list rest t id
end

mutual
/-- Path (list of items, outermost first) from a subtree's root down to the
item with identity `t`, the root itself included. -/
def pathToNode : Node → Nat → Option (List Node)
  | .mk i l e m cs, t =>
    if i = t then some [.mk i l e m cs]
    else (pathToList cs t).map (fun p => .mk i l e m cs :: p)
def pathToList : List Node → Nat → Option (List Node)
  | [], _ => none
  | c :: rest, t =>
    match pathToNode c t with
    | some p => some p
    | none => pathToList rest t
end

/-- Modelled from the spec: the filter proxy (`EntityTreeProxyModel`, code of
this repository not under `src/`) "applies a text-search regular-expression
filter and an optional 'mine only' boolean filter".  A row is accepted by the
basic test when the installed regexp matches its text and, if the mine-only
filter is on, the row is assigned to the current user (`Node.mine`). -/
def accepted (re : QRegExp) (onlyMine : Bool) (n : Node) : Bool :=
  qregexpAccepts re n.label && (!onlyMine || n.mine)

mutual
/-- Some item of the subtree (the root included) passes the basic filter
test. -/
def subtreeHasMatch (re : QRegExp) (onlyMine : Bool) : Node → Bool
  | .mk i l e m cs =>
    accepted re onlyMine (.mk i l e m cs) || subtreeHasMatchList re onlyMine cs
def subtreeHasMatchList (re : QRegExp) (onlyMine : Bool) : List Node → Bool
  | [] => false
  | c :: rest => subtreeHasMatch re onlyMine c || subtreeHasMatchList re onlyMine rest
end

mutual
/-- Modelled from the spec: visibility of a row in the hierarchical filter
proxy.  `anc` records whether an ancestor already passed the basic test (an
accepted row shows its whole subtree); an item is shown when itself or an
ancestor passes the test, or some descendant does (ancestors of matches stay
visible).  `visIn re om anc n t` decides whether the item with identity `t`,
looked up inside the subtree `n`, is shown. -/
def visIn (re : QRegExp) (onlyMine : Bool) (anc : Bool) : Node → Nat → Bool
  | .mk i l e m cs, t =>
    let self := .mk i l e m cs
    let acc := anc || accepted re onlyMine self
    if i = t then acc || subtreeHasMatch re onlyMine self
    else visInList re onlyMine acc cs t
def visInList (re : QRegExp) (onlyMine : Bool) (anc : Bool) : List Node → Nat → Bool
  | [], _ => false
  | c :: rest, t => visIn re onlyMine anc c t || visInList re onlyMine anc rest t
end

/-- A filtered-model index for the item with identity `t` is valid
(`mapFromSource(item.index()).isValid()`): the item is currently shown.
`root` is the invisible root item, never itself a row. -/
def isVisibleIn (re : QRegExp) (onlyMine : Bool) (root : Node) (t : Nat) : Bool :=
  visInList re onlyMine false root.children t

/-- The mutable state of an `EntityTreeForm` (its `self`), together with the
models it is wired to: the source model (invisible root `tree`, entity type
`entityType` of `get_entity_type()`), the filter proxy's current settings,
and the tree view's selection and expansion state. -/
structure Widget : Type where
  tree : Node
  entityType : String
  filterRegExp : QRegExp
  onlyMyTasks : Bool
  collapseStepsWithTasks : Bool
  entityToSelect : Option (String × Int)
  currentItemRef : Option Nat
  expandedItems : List Nat
  autoExpandedRootItems : List Nat
  selection : Option Nat
  viewExpanded : List Nat

def Widget.visible (w : Widget) (t : Nat) : Bool :=
  isVisibleIn w.filterRegExp w.onlyMyTasks w.tree t

/-- The rows the filter model exposes under item `n`
(`self._filter_model.rowCount` / `index(row, 0, idx)`, mapped to source). -/
def visibleChildren (w : Widget) (n : Node) : List Node :=
  n.children.filter (fun c => w.visible c.nid)

/-- Add to a Python `set` of (weak) references. -/
def insertNat (x : Nat) (l : List Nat) : List Nat :=
  if l.contains x then l else x :: l

/-- `set.discard`. -/
def removeNat (x : Nat) (l : List Nat) : List Nat :=
  l.filter (fun y => !(y == x))

/-- `_on_item_expanded`: resolve the expanded index to its source item and
add a (weak) reference to it to `self._expanded_items`. -/
def on_item_expanded (w : Widget) (t : Nat) : Widget :=
  match nodeById w.tree t with
  | none => w
  | some item => { w with expandedItems := insertNat item.nid w.expandedItems }

/-- `_on_item_collapsed`: discard the reference from `self._expanded_items`. -/
def on_item_collapsed (w : Widget) (t : Nat) : Widget :=
  match nodeById w.tree t with
  | none => w
  | some item => { w with expandedItems := removeNat item.nid w.expandedItems }

/-- `self._ui.entity_tree.expand(idx)`: Qt expands the row (no-op when it is
already expanded) and emits the `expanded` signal, which this widget has
connected to `_on_item_expanded`. -/
def expandView (w : Widget) (n : Node) : Widget :=
  if w.viewExpanded.contains n.nid then w
  else on_item_expanded { w with viewExpanded := n.nid :: w.viewExpanded } n.nid

/-- `_on_selection_changed(selected, deselected)` (state part): extract the
single newly selected index if any, remember the current item by weak
reference, and clear the entity-to-select when a current item is known.  The
`entity_selected` emission carries no widget state and is not modelled. -/
def on_selection_changed (w : Widget) (selectedIndexes : List Nat) : Widget :=
  let item : Option Node :=
    match selectedIndexes with
    | [i] => nodeById w.tree i
    | _ => none
  let itemRef := item.map Node.nid
  let w1 := { w with currentItemRef := itemRef }
  if itemRef.isSome then { w1 with entityToSelect := none } else w1

/-- `selectionModel().setCurrentIndex(idx, SelectCurrent)`: update the view
selection (an invalid index clears it) and, when the selection actually
changes, let the selection model emit `selectionChanged`, which runs
`_on_selection_changed` with the newly selected indexes.  Blocking the
widget's own signals does not block this connection. -/
def setCurrentIndex (w : Widget) (target : Option Nat) : Widget :=
  if target = w.selection then w
  else
    let w1 := { w with selection := target }
    on_selection_changed w1 (match target with | some i => [i] | none => [])

/-- `_get_selected_item`: the single selected index resolved to its source
item, if any. -/
def get_selected_item (w : Widget) : Option Node :=
  w.selection.bind (nodeById w.tree)

/-- The `item` computation of `_update_selection`: the to-be-selected
entity's item when a pending target is set (and the model's entity type
matches), else the dereferenced current-item reference. -/
def update_selection_item (w : Widget) : Option Node :=
  match w.entityToSelect with
  | some ts =>
    if w.entityType = ts.1 then item_from_entity w.tree ts.1 ts.2 else none
  | none =>
    match w.currentItemRef with
    | some r => nodeById w.tree r
    | none => none

/-- `_update_selection`: select the resolved item whenever it is visible in
the current filtered model.  The `prev_selected_item` argument of the Python
method only feeds the `entity_selected` emission, which carries no widget
state, so it is not a parameter here. -/
def update_selection (w : Widget) : Widget :=
  match update_selection_item w with
  | some n => if w.visible n.nid then setCurrentIndex w (some n.nid) else w
  | none => w

/-- `select_entity(entity_type, entity_id)`: record the pending selection
target, reset the view selection without signals, drop the current-item
reference, and try to reconcile. -/
def select_entity (w : Widget) (entity_type : String) (entity_id : Int) : Widget :=
  let w1 := { w with entityToSelect := some (entity_type, entity_id) }
  let w2 := { w1 with selection := none }
  let w3 := { w2 with currentItemRef := none }
  update_selection w3

/-- `_on_search_changed(search_text)`: reset the selection without signals,
install the new filter regexp, then restore the selection if possible. -/
def on_search_changed (w : Widget) (search_text : String) : Widget :=
  let w1 := { w with selection := none }
  let w2 := { w1 with filterRegExp := update_filter_regexp search_text }
  update_selection w2

/-- `_on_my_tasks_only_toggled(checked)`: reset the selection without
signals, set the proxy's `only_show_my_tasks`, then restore the selection if
possible. -/
def on_my_tasks_only_toggled (w : Widget) (checked : Bool) : Widget :=
  let w1 := { w with selection := none }
  let w2 := { w1 with onlyMyTasks := checked }
  update_selection w2

/-- A breadcrumb: `Breadcrumb(label)` for plain items,
`EntityTreeForm._EntityBreadcrumb(label, entity)` for entity items. -/
inductive Crumb : Type where
  | plain (label : String) : Crumb
  | entityCrumb (label : String) (entity : Entity) : Crumb

/-- The breadcrumb `_build_breadcrumb_trail` emits for one model item:
entity items get `"<b>%s</b> %s" % (type, name-or-content)` (the `content`
field for a Task, `name` otherwise) and carry the entity; other items get
their model text. -/
def crumbOf (n : Node) : Crumb :=
  match n.entity with
  | some e =>
    let name_token := if e.etype = "Task" then e.content else e.name
    Crumb.entityCrumb ("<b>" ++ e.etype ++ "</b> " ++ pyStr name_token) e
  | none => Crumb.plain n.label

/-- `_build_breadcrumb_trail`: with exactly one selected index, walk from the
selected source item up through `idx.parent()` collecting one crumb per
item, and return the reversed (root-first) list.  With the source path `p`
(root-level ancestor first), the upward walk visits `p.reverse`.  With no
single selection the Python method returns an empty dict; both empty results
are the empty trail here. -/
def build_breadcrumb_trail (w : Widget) : List Crumb :=
  match w.selection with
  | none => []
  | some t =>
    match pathToList w.tree.children t with
    | none => []
    | some p => (p.reverse.map crumbOf).reverse

/-- The selection-details dict `{"label": label, "entity": entity,
"children": [{"label": l, "entity": e}, ...]}`. -/
structure SelDetails : Type where
  label : String
  entity : Option Entity
  children : List (String × Option Entity)

/-- The Step-to-Task collapsing pass of `_get_entity_details` for one child
row: when the child is a Step, every visible grandchild Task yields a
collapsed entry `("%s - %s" % (child_label, grandchild_label), task)`. -/
def stepTaskCollapsed (w : Widget) (ch : Node) : List (String × Option Entity) :=
  match ch.entity with
  | some ce =>
    if w.collapseStepsWithTasks && ce.etype = "Step" then
      (visibleChildren w ch).filterMap (fun gc =>
        match gc.entity with
        | some ge =>
          if ge.etype = "Task" then some (ch.label ++ " - " ++ gc.label, some ge)
          else none
        | none => none)
    else []
  | none => []

/-- `_get_entity_details(idx)`: `{}` (here `none`) on an invalid index or
unresolvable item; otherwise the item's label and entity with its visible
children, preferring Step-Task collapsed children when present, and — when
the item itself is a Step whose children are Tasks — collapsing the label
into the children and clearing the entity. -/
def get_entity_details (w : Widget) (idx : Option Nat) : Option SelDetails :=
  match idx with
  | none => none
  | some t =>
    match nodeById w.tree t with
    | none => none
    | some item =>
      let label := item.label
      let entity := item.entity
      let vcs := visibleChildren w item
      let children := vcs.map (fun c => (c.label, c.entity))
      match (vcs.map (stepTaskCollapsed w)).flatten with
      | cc :: ccs => some ⟨label, entity, cc :: ccs⟩
      | [] =>
        match entity with
        | some e =>
          if w.collapseStepsWithTasks && e.etype = "Step" then
            match children.filterMap (fun pr =>
              match pr.2 with
              | some ce =>
                if ce.etype = "Task" then some (label ++ " - " ++ pr.1, some ce)
                else none
              | none => none) with
            | c2 :: c2s => some ⟨label, none, c2 :: c2s⟩
            | [] => some ⟨label, entity, children⟩
          else some ⟨label, entity, children⟩
        | none => some ⟨label, entity, children⟩

/-- `get_selection()`: details and breadcrumb trail of the single selected
index, or empty results. -/
def get_selection (w : Widget) : Option SelDetails × List Crumb :=
  match w.selection with
  | some t => (get_entity_details w (some t), build_breadcrumb_trail w)
  | none => (none, [])

/-- The entity-crumb child search of `navigate_to`: for each child row in
order, `sg_entity = src_model.get_entity(child_item)` followed by
`sg_entity["type"] == ... and sg_entity["id"] == ...`.  When `get_entity`
returns `None` the subscription raises a `TypeError`, modelled as
`Except.error`. -/
def findEntityChildE : List Node → String → Int → Except String (Option Node)
  | [], _, _ => Except.ok none
  | c :: rest, t, i =>
    match c.entity with
    | none => Except.error "TypeError: 'NoneType' object is not subscriptable"
    | some e =>
      if e.etype = t ∧ e.eid = i then Except.ok (some c)
      else findEntityChildE rest t i

/-- The plain-crumb child search of `navigate_to`: first child item whose
model text equals the crumb label. -/
def findLabelChild (cs : List Node) (lbl : String) : Option Node :=
  cs.find? (fun c => c.label == lbl)

/-- One iteration of the `navigate_to` loop body up to `found_item`. -/
def crumbStep (cur : Node) (c : Crumb) : Except String (Option Node) :=
  match c with
  | .entityCrumb _ ent => findEntityChildE cur.children ent.etype ent.eid
  | .plain lbl => Except.ok (findLabelChild cur.children lbl)

/-- The `navigate_to` walk after it has descended to a real item `cur`:
stop on a crumb with no matching child or whose match is not visible in the
filtered model, else descend. -/
def navWalk (w : Widget) : Node → List Crumb → Except String Node
  | cur, [] => Except.ok cur
  | cur, c :: rest =>
    match crumbStep cur c with
    | .error e => .error e
    | .ok none => .ok cur
    | .ok (some f) =>
      if w.visible f.nid then navWalk w f rest else .ok cur

/-- The `navigate_to` walk from `invisibleRootItem()`: `none` when traversal
never left the invisible root (whose index is invalid). -/
def navRoot (w : Widget) : List Crumb → Except String (Option Node)
  | [] => Except.ok none
  | c :: rest =>
    match crumbStep w.tree c with
    | .error e => .error e
    | .ok none => .ok none
    | .ok (some f) =>
      if w.visible f.nid then (navWalk w f rest).map some
      else .ok none

/-- `navigate_to(breadcrumb_trail)`: walk the trail down from the root and
select the deepest item reached; when traversal never left the invisible
root, `mapFromSource` of its invalid index is invalid and the selection is
cleared. -/
def navigate_to (w : Widget) (breadcrumb_trail : List Crumb) : Except String Widget :=
  match navRoot w breadcrumb_trail with
  | .error e => .error e
  | .ok none => .ok (setCurrentIndex w none)
  | .ok (some item) => .ok (setCurrentIndex w (some item.nid))

/-- `_on_new_task` up to the `create_new_task.emit(entity, step)` call:
`some (entity, step)` exactly when the signal is emitted.  The guard
`if not self._filter_model` never fires (the proxy is created in the
constructor and kept). -/
def on_new_task (w : Widget) : Option (Entity × Option Entity) :=
  match w.selection with
  | none => none
  | some t =>
    match nodeById w.tree t with
    | none => none
    | some item =>
      match item.entity with
      | none => none
      | some entity =>
        if entity.etype = "Step" then none
        else if entity.etype = "Task" then
          match entity.link with
          | none => none
          | some linked => some (linked, entity.step)
        else some (entity, none)

mutual
/-- `_fix_expanded_state_r(idx)`: for a root item never auto-expanded, add it
to both the auto-expanded-root set and the expanded set; expand the item
when its reference is in the expanded set; recurse into the filter model's
child rows.  The filter settings and source model (`re`, `onlyMine`,
`root`) are read-only during the handler and passed unchanged. -/
def fix_expanded_state_r (re : QRegExp) (onlyMine : Bool) (root : Node)
    (w : Widget) (isRoot : Bool) : Node → Widget
  | .mk i l e m cs =>
    let n := Node.mk i l e m cs
    let w1 :=
      if isRoot then
        if w.autoExpandedRootItems.contains i then w
        else { w with autoExpandedRootItems := insertNat i w.autoExpandedRootItems,
                      expandedItems := insertNat i w.expandedItems }
      else w
    let w2 := if w1.expandedItems.contains i then expandView w1 n else w1
    fix_expanded_list re onlyMine root w2 cs
/-- The `for row in range(0, rowCount(idx))` recursion of
`_fix_expanded_state_r`: only rows of the filtered model are visited. -/
def fix_expanded_list (re : QRegExp) (onlyMine : Bool) (root : Node)
    (w : Widget) : List Node → Widget
  | [] => w
  | c :: rest =>
    let w' := if isVisibleIn re onlyMine root c.nid
              then fix_expanded_state_r re onlyMine root w false c
              else w
    fix_expanded_list re onlyMine root w' rest
end

/-- The rows `self._filter_model.index(row, 0, parent_idx)` resolves:
top-level rows for an invalid parent, the parent's filtered child rows
otherwise. -/
def rowsOf (w : Widget) (parent : Option Nat) : List Node :=
  match parent with
  | none => visibleChildren w w.tree
  | some p =>
    match nodeById w.tree p with
    | some pn => visibleChildren w pn
    | none => []

/-- The inserted rows `range(first, last+1)` of
`_on_filter_model_rows_inserted`. -/
def insertedRows (w : Widget) (parent : Option Nat) (first last : Nat) : List Node :=
  ((rowsOf w parent).drop first).take (last + 1 - first)

/-- `_on_filter_model_rows_inserted(parent_idx, first, last)`: re-expand the
parent when its reference is tracked as expanded, then fix the expanded
state of every inserted row recursively.  The model and filter are not
mutated by the handler, so the row list is computed once. -/
def on_filter_model_rows_inserted (w : Widget) (parent : Option Nat)
    (first last : Nat) : Widget :=
  let w1 :=
    match parent with
    | some p =>
      match nodeById w.tree p with
      | some item => if w.expandedItems.contains item.nid then expandView w item else w
      | none => w
    | none => w
  (insertedRows w parent first last).foldl
    (fun acc r => fix_expanded_state_r w.filterRegExp w.onlyMyTasks w.tree acc parent.isNone r)
    w1

/-- `_expand_root_rows`: expand every root row that has never received its
one-time automatic expansion and record it in the auto-expanded-root set. -/
def expand_root_rows (w : Widget) : Widget :=
  (visibleChildren w w.tree).foldl
    (fun acc item =>
      if acc.autoExpandedRootItems.contains item.nid then acc
      else
        let acc1 := expandView acc item
        { acc1 with autoExpandedRootItems := insertNat item.nid acc1.autoExpandedRootItems })
    w

/-- The constructor: fresh bookkeeping state (`_collapse_steps_with_tasks =
True`, everything else empty), the proxy's default empty filter pattern
(which accepts every row), then `_expand_root_rows()`. -/
def init_widget (tree : Node) (entityType : String) : Widget :=
  expand_root_rows
    { tree := tree
      entityType := entityType
      filterRegExp := { pattern := "", caseInsensitive := true, syn := PatSyn.fixedString }
      onlyMyTasks := false
      collapseStepsWithTasks := true
      entityToSelect := none
      currentItemRef := none
      expandedItems := []
      autoExpandedRootItems := []
      selection := none
      viewExpanded := [] }

/-- The external stimuli the widget reacts to. -/
inductive Event : Type where
  | search (txt : String) : Event
  | mineToggle (b : Bool) : Event
  | selectEnt (t : String) (i : Int) : Event
  | userSelect (sel : Option Nat) : Event
  | navigate (trail : List Crumb) : Event
  | rowsInserted (parent : Option Nat) (first last : Nat) : Event
  | viewExpand (t : Nat) : Event
  | viewCollapse (t : Nat) : Event
  | modelChanged (t : Node) : Event

/-- One reaction of the widget: the public methods, the connected slots, a
user click (which moves the view selection and fires
`_on_selection_changed`), a user expand/collapse (which changes the view
state and fires the tracking slots), and an asynchronous model change.  A
`navigate` that raises leaves the state as it was at the raise point (the
walk mutates nothing before selecting). -/
def step (w : Widget) : Event → Widget
  | .search txt => on_search_changed w txt
  | .mineToggle b => on_my_tasks_only_toggled w b
  | .selectEnt t i => select_entity w t i
  | .userSelect sel => setCurrentIndex w sel
  | .navigate tr =>
    match navigate_to w tr with
    | .ok w' => w'
    | .error _ => w
  | .rowsInserted p f l => on_filter_model_rows_inserted w p f l
  | .viewExpand t => on_item_expanded { w with viewExpanded := insertNat t w.viewExpanded } t
  | .viewCollapse t => on_item_collapsed { w with viewExpanded := removeNat t w.viewExpanded } t
  | .modelChanged t => { w with tree := t }

mutual
/-- The items `_fix_expanded_state_r` visits when run on `n`: the item
itself and, recursively, its filtered child rows. -/
def subtreeVisible (re : QRegExp) (onlyMine : Bool) (root : Node) : Node → List Node
  | .mk i l e m cs => Node.mk i l e m cs :: subtreeVisibleList re onlyMine root cs
def subtreeVisibleList (re : QRegExp) (onlyMine : Bool) (root : Node) : List Node → List Node
  | [] => []
  | c :: rest =>
    (if isVisibleIn re onlyMine root c.nid then subtreeVisible re onlyMine root c else [])
      ++ subtreeVisibleList re onlyMine root rest
end

/-- What one run of the expansion bookkeeping can do to the widget: nothing
outside the three expansion sets and the view's expanded rows changes, the
sets only grow, and a reference can enter the expanded set, or a row be
newly expanded in the view, only if it was already tracked as expanded or
had not yet received its automatic root expansion. -/
structure ExpStep (w w' : Widget) : Prop where
  tree_eq : w'.tree = w.tree
  entityType_eq : w'.entityType = w.entityType
  filter_eq : w'.filterRegExp = w.filterRegExp
  onlyMy_eq : w'.onlyMyTasks = w.onlyMyTasks
  collapse_eq : w'.collapseStepsWithTasks = w.collapseStepsWithTasks
  target_eq : w'.entityToSelect = w.entityToSelect
  ref_eq : w'.currentItemRef = w.currentItemRef
  sel_eq : w'.selection = w.selection
  exp_mono : ∀ x, x ∈ w.expandedItems → x ∈ w'.expandedItems
  auto_mono : ∀ x, x ∈ w.autoExpandedRootItems → x ∈ w'.autoExpandedRootItems
  view_mono : ∀ x, x ∈ w.viewExpanded → x ∈ w'.viewExpanded
  exp_new : ∀ x, x ∈ w'.expandedItems →
    x ∈ w.expandedItems ∨ x ∉ w.autoExpandedRootItems
  view_new : ∀ x, x ∈ w'.viewExpanded →
    x ∈ w.viewExpanded ∨ x ∈ w.expandedItems ∨ x ∉ w.autoExpandedRootItems

/-- The invariant: the pending-selection target and the last-known current
item are never both set. -/
def MutEx (w : Widget) : Prop :=
  w.entityToSelect = none ∨ w.currentItemRef = none

/-- The tracking state of the selection reconciler: no pending target, a
live reference to the logically selected item, and a view selection that is
exactly the item when it is visible under the current filter. -/
def SelTracks (w : Widget) (r : Nat) (n : Node) : Prop :=
  w.entityToSelect = none ∧ w.currentItemRef = some r ∧
    nodeById w.tree r = some n ∧
    w.selection = (if w.visible r then some r else none)

/-- The filter-change stimuli of the claim: a search-text edit or a
my-tasks-only toggle. -/
inductive FilterChange : Type where
  | search (txt : String) : FilterChange
  | mineOnly (b : Bool) : FilterChange

def applyFilterChange (w : Widget) : FilterChange → Widget
  | .search txt => on_search_changed w txt
  | .mineOnly b => on_my_tasks_only_toggled w b


/-- The crumb-by-crumb success condition of the `navigate_to` walk along a
source path: at each level the path item is the first child matching its own
crumb and is visible in the filtered model. -/
def NavFollows (w : Widget) : Node → List Node → Prop
  | _, [] => True
  | cur, b :: rest =>
    crumbStep cur (crumbOf b) = Except.ok (some b) ∧ w.visible b.nid = true ∧
      NavFollows w b rest

/-- Fixtures for the concrete witnesses: a "Task" model whose invisible root
holds a Shot with a Step with a Task, next to an entity-less grouping row. -/
def egShot : Entity := .mk "Shot" 101 (some "shot1") none none none

def egStepEnt : Entity := .mk "Step" 5 (some "Rig") none none none

def egTaskEnt : Entity := .mk "Task" 9 none (some "Anim") (some egShot) (some egStepEnt)

def egTaskN : Node := .mk 3 "Anim" (some egTaskEnt) true []

def egStepN : Node := .mk 2 "Rig" (some egStepEnt) true [egTaskN]

def egShotN : Node := .mk 1 "shot1" (some egShot) true [egStepN]

def egGroupN : Node := .mk 4 "group" none true []

def egRoot : Node := .mk 0 "" none true [egShotN, egGroupN]

def egW : Widget := init_widget egRoot "Task"

def egWsel : Widget := select_entity egW "Task" 9

/-- Fixture for the C8 witness: the example widget with the Step item's
reference tracked as expanded and the view's expansion state freshly reset
(as after a refilter removed and re-inserted the rows). -/
def egW8 : Widget := { egW with expandedItems := [2], viewExpanded := [] }

/-- Fixture for the C9 witness: the example widget after the user collapsed
the already auto-expanded Shot root row. -/
def egW9 : Widget := step egW (Event.viewCollapse 1)

/-- The asynchronous model-population stimuli of the claim's deferred case:
events that change or re-announce model content and expansion bookkeeping
but involve no user selection or filter input. -/
def ModelUpdate : Event → Prop
  | .search _ => False
  | .mineToggle _ => False
  | .selectEnt _ _ => False
  | .userSelect _ => False
  | .navigate _ => False
  | .rowsInserted _ _ _ => True
  | .viewExpand _ => True
  | .viewCollapse _ => True
  | .modelChanged _ => True

/-- Fixture for the C3 witness: the same model *before* the asynchronous
load delivered the Step and Task items — the Shot row is still childless. -/
def egShotN0 : Node := .mk 1 "shot1" (some egShot) true []

def egRoot0 : Node := .mk 0 "" none true [egShotN0, egGroupN]

def egW0 : Widget := init_widget egRoot0 "Task"

/-! ### Basic lemmas about the tree searches -/

mutual
theorem nodeById_nid : ∀ (n : Node) (t : Nat) (m : Node), nodeById n t = some m → m.nid = t
  | .mk i l e mm cs, t, m, h => by
    unfold nodeById at h
    split at h
    · cases h; assumption
    · exact nodeByIdList_nid cs t m h
theorem nodeByIdList_nid : ∀ (cs : List Node) (t : Nat) (m : Node),
    nodeByIdList cs t = some m → m.nid = t
  | [], t, m, h => by simp [nodeByIdList] at h
  | c :: rest, t, m, h => by
    unfold nodeByIdList at h
    split at h
    · rename_i heq; cases h; exact nodeById_nid c t _ heq
    · exact nodeByIdList_nid rest t m h
end

mutual
theorem item_from_entity_nodeById : ∀ (n : Node) (t : String) (i : Int) (m : Node),
    item_from_entity n t i = some m → (nodeById n m.nid).isSome = true
  | .mk ni l e mm cs, t, i, m, h => by
    unfold item_from_entity at h
    unfold nodeById
    split
    · simp
    · rename_i hne
      split at h
      · split at h
        · cases h
          simp [Node.nid] at hne
        · exact item_from_entity_nodeById_list cs t i m h
      · exact item_from_entity_nodeById_list cs t i m h
theorem item_from_entity_nodeById_list : ∀ (cs : List Node) (t : String) (i : Int) (m : Node),
    item_from_entity_list cs t i = some m → (nodeByIdList cs m.nid).isSome = true
  | [], t, i, m, h => by simp [item_from_entity_list] at h
  | c :: rest, t, i, m, h => by
    unfold item_from_entity_list at h
    unfold nodeByIdList
    split at h
    · rename_i heq
      cases h
      have := item_from_entity_nodeById c t i m heq
      split
      · simp
      · rename_i hnone
        rw [hnone] at this
        simp at this
    · have := item_from_entity_nodeById_list rest t i m h
      split
      · simp
      · exact this
end


/-! ### Selection bookkeeping lemmas -/

/-- `_update_selection` either leaves the widget alone or performs one
`setCurrentIndex` on a valid index. -/
theorem update_selection_cases (w : Widget) :
    update_selection w = w ∨ ∃ t : Nat, update_selection w = setCurrentIndex w (some t) := by
  unfold update_selection
  cases update_selection_item w with
  | none => left; rfl
  | some n =>
    by_cases h : w.visible n.nid = true
    · right; exact ⟨n.nid, by simp [h]⟩
    · left; simp [h]

/-- `_on_selection_changed` leaves the mutually-exclusive fields in a
consistent state: afterwards the pending target or the current-item
reference is unset. -/
theorem on_selection_changed_mutex (w : Widget) (l : List Nat) :
    (on_selection_changed w l).entityToSelect = none ∨
      (on_selection_changed w l).currentItemRef = none := by
  unfold on_selection_changed
  cases hl : (match l with | [i] => nodeById w.tree i | _ => none : Option Node) with
  | none => right; simp [hl]
  | some n => left; simp [hl]

theorem setCurrentIndex_mutex (w : Widget) (t : Option Nat)
    (h : w.entityToSelect = none ∨ w.currentItemRef = none) :
    (setCurrentIndex w t).entityToSelect = none ∨
      (setCurrentIndex w t).currentItemRef = none := by
  unfold setCurrentIndex
  split
  · exact h
  · exact on_selection_changed_mutex _ _

theorem update_selection_mutex (w : Widget)
    (h : w.entityToSelect = none ∨ w.currentItemRef = none) :
    (update_selection w).entityToSelect = none ∨
      (update_selection w).currentItemRef = none := by
  rcases update_selection_cases w with hc | ⟨t, hc⟩
  · rw [hc]; exact h
  · rw [hc]; exact setCurrentIndex_mutex _ _ h

/-- `_on_selection_changed` never installs a pending target. -/
theorem on_selection_changed_target (w : Widget) (l : List Nat) :
    (on_selection_changed w l).entityToSelect = none ∨
      (on_selection_changed w l).entityToSelect = w.entityToSelect := by
  unfold on_selection_changed
  cases hl : (match l with | [i] => nodeById w.tree i | _ => none : Option Node) with
  | none => right; simp [hl]
  | some n => left; simp [hl]

theorem setCurrentIndex_target (w : Widget) (t : Option Nat)
    (h : w.entityToSelect = none) : (setCurrentIndex w t).entityToSelect = none := by
  unfold setCurrentIndex
  split
  · exact h
  · rcases on_selection_changed_target { w with selection := t } _ with h' | h'
    · exact h'
    · simpa [h] using h'

theorem update_selection_target (w : Widget)
    (h : w.entityToSelect = none) : (update_selection w).entityToSelect = none := by
  rcases update_selection_cases w with hc | ⟨t, hc⟩
  · rw [hc]; exact h
  · rw [hc]; exact setCurrentIndex_target _ _ h

/-! ### Expansion bookkeeping lemmas -/

theorem contains_iff_mem (l : List Nat) (x : Nat) : l.contains x = true ↔ x ∈ l :=
  List.elem_iff

theorem mem_insertNat {x a : Nat} {l : List Nat} :
    x ∈ insertNat a l ↔ x = a ∨ x ∈ l := by
  unfold insertNat
  split
  · rename_i h
    constructor
    · exact Or.inr
    · rintro (rfl | hx)
      · exact (contains_iff_mem l x).mp h
      · exact hx
  · exact List.mem_cons

theorem expStep_refl (w : Widget) : ExpStep w w :=
  ⟨rfl, rfl, rfl, rfl, rfl, rfl, rfl, rfl,
   fun _ h => h, fun _ h => h, fun _ h => h,
   fun _ h => Or.inl h, fun _ h => Or.inl h⟩

theorem expStep_trans {w1 w2 w3 : Widget} (a : ExpStep w1 w2) (b : ExpStep w2 w3) :
    ExpStep w1 w3 := by
  refine ⟨b.tree_eq.trans a.tree_eq, b.entityType_eq.trans a.entityType_eq,
    b.filter_eq.trans a.filter_eq, b.onlyMy_eq.trans a.onlyMy_eq,
    b.collapse_eq.trans a.collapse_eq, b.target_eq.trans a.target_eq,
    b.ref_eq.trans a.ref_eq, b.sel_eq.trans a.sel_eq,
    fun x h => b.exp_mono x (a.exp_mono x h),
    fun x h => b.auto_mono x (a.auto_mono x h),
    fun x h => b.view_mono x (a.view_mono x h), ?_, ?_⟩
  · intro x h
    rcases b.exp_new x h with h2 | h2
    · exact a.exp_new x h2
    · right; intro hc; exact h2 (a.auto_mono x hc)
  · intro x h
    rcases b.view_new x h with h2 | h2 | h2
    · exact a.view_new x h2
    · rcases a.exp_new x h2 with h3 | h3
      · right; left; exact h3
      · right; right; exact h3
    · right; right; intro hc; exact h2 (a.auto_mono x hc)

/-- `_on_item_expanded` only adds the resolved item's own reference. -/
theorem on_item_expanded_spec (w : Widget) (t : Nat) :
    ((on_item_expanded w t).expandedItems = w.expandedItems ∨
      (on_item_expanded w t).expandedItems = insertNat t w.expandedItems) ∧
    (on_item_expanded w t).tree = w.tree ∧
    (on_item_expanded w t).entityType = w.entityType ∧
    (on_item_expanded w t).filterRegExp = w.filterRegExp ∧
    (on_item_expanded w t).onlyMyTasks = w.onlyMyTasks ∧
    (on_item_expanded w t).collapseStepsWithTasks = w.collapseStepsWithTasks ∧
    (on_item_expanded w t).entityToSelect = w.entityToSelect ∧
    (on_item_expanded w t).currentItemRef = w.currentItemRef ∧
    (on_item_expanded w t).selection = w.selection ∧
    (on_item_expanded w t).autoExpandedRootItems = w.autoExpandedRootItems ∧
    (on_item_expanded w t).viewExpanded = w.viewExpanded := by
  unfold on_item_expanded
  cases h : nodeById w.tree t with
  | none => simp
  | some item =>
    have := nodeById_nid _ _ _ h
    subst this
    simp

/-- `expand` touches only the view state and (through the `expanded` signal)
the expanded set, and only with the expanded row's own reference. -/
theorem expandView_expStep (w : Widget) (n : Node)
    (h : n.nid ∈ w.expandedItems ∨ n.nid ∉ w.autoExpandedRootItems) :
    ExpStep w (expandView w n) := by
  unfold expandView
  split
  · exact expStep_refl w
  · set w1 : Widget := { w with viewExpanded := n.nid :: w.viewExpanded } with hw1
    obtain ⟨hexp, h1, h2, h3, h4, h5, h6, h7, h8, h9, h10⟩ :=
      on_item_expanded_spec w1 n.nid
    refine ⟨h1, h2, h3, h4, h5, h6, h7, h8, ?_, ?_, ?_, ?_, ?_⟩
    · intro x hx
      rcases hexp with he | he <;> rw [he]
      · exact hx
      · exact mem_insertNat.mpr (Or.inr hx)
    · intro x hx; rw [h9]; exact hx
    · intro x hx; rw [h10]; exact List.mem_cons_of_mem _ hx
    · intro x hx
      rcases hexp with he | he <;> rw [he] at hx
      · exact Or.inl hx
      · rcases mem_insertNat.mp hx with rfl | hx'
        · rcases h with h | h
          · exact Or.inl h
          · exact Or.inr h
        · exact Or.inl hx'
    · intro x hx
      rw [h10] at hx
      rcases List.mem_cons.mp hx with rfl | hx'
      · rcases h with h | h
        · exact Or.inr (Or.inl h)
        · exact Or.inr (Or.inr h)
      · exact Or.inl hx'

/-- The one-time root bookkeeping step of `_fix_expanded_state_r`. -/
theorem auto_branch_expStep (w : Widget) (i : Nat) (b : Bool) :
    ExpStep w (if b then (if w.autoExpandedRootItems.contains i then w
      else { w with autoExpandedRootItems := insertNat i w.autoExpandedRootItems,
                    expandedItems := insertNat i w.expandedItems }) else w) := by
  split
  · split
    · exact expStep_refl w
    · rename_i hni
      refine ⟨rfl, rfl, rfl, rfl, rfl, rfl, rfl, rfl, ?_, ?_, ?_, ?_, ?_⟩
      · intro x hx; exact mem_insertNat.mpr (Or.inr hx)
      · intro x hx; exact mem_insertNat.mpr (Or.inr hx)
      · intro x hx; exact hx
      · intro x hx
        rcases mem_insertNat.mp hx with rfl | hx'
        · exact Or.inr (fun hc => hni ((contains_iff_mem _ _).mpr hc))
        · exact Or.inl hx'
      · intro x hx; exact Or.inl hx
  · exact expStep_refl w

/-- The conditional re-expansion step of `_fix_expanded_state_r`. -/
theorem exp_branch_expStep (w1 : Widget) (i : Nat) (l : String) (e : Option Entity)
    (m : Bool) (cs : List Node) :
    ExpStep w1 (if w1.expandedItems.contains i then expandView w1 (Node.mk i l e m cs)
      else w1) := by
  split
  · rename_i h
    exact expandView_expStep _ _ (Or.inl ((contains_iff_mem _ _).mp h))
  · exact expStep_refl _

mutual
theorem fix_state_expStep :
    ∀ (re : QRegExp) (om : Bool) (root : Node) (w : Widget) (b : Bool) (n : Node),
      ExpStep w (fix_expanded_state_r re om root w b n)
  | re, om, root, w, b, .mk i l e m cs => by
    unfold fix_expanded_state_r
    dsimp only
    exact expStep_trans
      (expStep_trans (auto_branch_expStep w i b) (exp_branch_expStep _ i l e m cs))
      (fix_list_expStep re om root _ cs)
theorem fix_list_expStep :
    ∀ (re : QRegExp) (om : Bool) (root : Node) (w : Widget) (cs : List Node),
      ExpStep w (fix_expanded_list re om root w cs)
  | re, om, root, w, [] => by
    unfold fix_expanded_list; exact expStep_refl w
  | re, om, root, w, c :: rest => by
    unfold fix_expanded_list
    dsimp only
    refine expStep_trans ?_ (fix_list_expStep re om root _ rest)
    split
    · exact fix_state_expStep re om root w false c
    · exact expStep_refl w
end

theorem foldl_expStep (g : Widget → Node → Widget) (hg : ∀ a r, ExpStep a (g a r)) :
    ∀ (rows : List Node) (acc : Widget), ExpStep acc (rows.foldl g acc)
  | [], acc => expStep_refl acc
  | r :: rest, acc => expStep_trans (hg acc r) (foldl_expStep g hg rest (g acc r))

theorem rows_inserted_expStep (w : Widget) (parent : Option Nat) (first last : Nat) :
    ExpStep w (on_filter_model_rows_inserted w parent first last) := by
  unfold on_filter_model_rows_inserted
  refine expStep_trans ?_
    (foldl_expStep _ (fun a r => fix_state_expStep _ _ _ a _ r) _ _)
  cases parent with
  | none => exact expStep_refl w
  | some p =>
    dsimp only
    cases h : nodeById w.tree p with
    | none => exact expStep_refl w
    | some item =>
      dsimp only
      split
      · rename_i hc
        exact expandView_expStep _ _ (Or.inl ((contains_iff_mem _ _).mp hc))
      · exact expStep_refl w

theorem auto_add_expStep (w : Widget) (i : Nat) :
    ExpStep w { w with autoExpandedRootItems := insertNat i w.autoExpandedRootItems } := by
  refine ⟨rfl, rfl, rfl, rfl, rfl, rfl, rfl, rfl, ?_, ?_, ?_, ?_, ?_⟩
  · intro x hx; exact hx
  · intro x hx; exact mem_insertNat.mpr (Or.inr hx)
  · intro x hx; exact hx
  · intro x hx; exact Or.inl hx
  · intro x hx; exact Or.inl hx

theorem expand_root_rows_expStep (w : Widget) : ExpStep w (expand_root_rows w) := by
  unfold expand_root_rows
  refine foldl_expStep _ ?_ _ _
  intro a r
  dsimp only
  split
  · exact expStep_refl a
  · rename_i hna
    exact expStep_trans
      (expandView_expStep a r (Or.inr (fun hc => hna ((contains_iff_mem _ _).mpr hc))))
      (auto_add_expStep _ _)

/-! ### The mutual-exclusion invariant (claim C2) -/

theorem on_item_collapsed_fields (w : Widget) (t : Nat) :
    (on_item_collapsed w t).entityToSelect = w.entityToSelect ∧
      (on_item_collapsed w t).currentItemRef = w.currentItemRef := by
  unfold on_item_collapsed
  cases nodeById w.tree t <;> simp

theorem step_mutex (w : Widget) (e : Event) (h : MutEx w) : MutEx (step w e) := by
  cases e with
  | search txt =>
    show MutEx (on_search_changed w txt)
    unfold on_search_changed
    refine update_selection_mutex _ ?_
    rcases h with h | h
    · left; simpa using h
    · right; simpa using h
  | mineToggle b =>
    show MutEx (on_my_tasks_only_toggled w b)
    unfold on_my_tasks_only_toggled
    refine update_selection_mutex _ ?_
    rcases h with h | h
    · left; simpa using h
    · right; simpa using h
  | selectEnt t i =>
    show MutEx (select_entity w t i)
    unfold select_entity
    exact update_selection_mutex _ (Or.inr (by simp))
  | userSelect sel =>
    exact setCurrentIndex_mutex _ _ h
  | navigate tr =>
    show MutEx (match navigate_to w tr with | .ok w' => w' | .error _ => w)
    unfold navigate_to
    cases hnr : navRoot w tr with
    | error e => exact h
    | ok o =>
      cases o with
      | none => exact setCurrentIndex_mutex _ _ h
      | some item => exact setCurrentIndex_mutex _ _ h
  | rowsInserted p f l =>
    show MutEx (on_filter_model_rows_inserted w p f l)
    have hs := rows_inserted_expStep w p f l
    rcases h with h | h
    · left; rw [hs.target_eq]; exact h
    · right; rw [hs.ref_eq]; exact h
  | viewExpand t =>
    show MutEx (on_item_expanded { w with viewExpanded := insertNat t w.viewExpanded } t)
    obtain ⟨-, -, -, -, -, -, h6, h7, -⟩ :=
      on_item_expanded_spec { w with viewExpanded := insertNat t w.viewExpanded } t
    rcases h with h | h
    · left; rw [h6]; simpa using h
    · right; rw [h7]; simpa using h
  | viewCollapse t =>
    show MutEx (on_item_collapsed { w with viewExpanded := removeNat t w.viewExpanded } t)
    obtain ⟨h6, h7⟩ :=
      on_item_collapsed_fields { w with viewExpanded := removeNat t w.viewExpanded } t
    rcases h with h | h
    · left; rw [h6]; simpa using h
    · right; rw [h7]; simpa using h
  | modelChanged t =>
    show MutEx { w with tree := t }
    rcases h with h | h
    · left; simpa using h
    · right; simpa using h

theorem foldl_mutex : ∀ (es : List Event) (w : Widget), MutEx w → MutEx (es.foldl step w)
  | [], _, h => h
  | e :: rest, w, h => foldl_mutex rest (step w e) (step_mutex w e h)

theorem init_widget_mutex (tree : Node) (etype : String) : MutEx (init_widget tree etype) := by
  unfold init_widget
  left
  rw [(expand_root_rows_expStep _).target_eq]

/-! ### Selection restoration across filter changes (claim C1) -/

theorem setCurrentIndex_some_state (w : Widget) (r : Nat) (n : Node)
    (hsel : w.selection ≠ some r) (hn : nodeById w.tree r = some n) :
    setCurrentIndex w (some r) =
      { w with selection := some r, currentItemRef := some n.nid,
               entityToSelect := none } := by
  unfold setCurrentIndex
  rw [if_neg (fun hc => hsel hc.symm)]
  unfold on_selection_changed
  simp [hn]

/-- With no pending target and a live current-item reference, on a reset
selection `_update_selection` either restores the selection to that very
item (when visible) or does nothing (when filtered out). -/
theorem update_selection_ref_state (w : Widget) (r : Nat) (n : Node)
    (hts : w.entityToSelect = none) (href : w.currentItemRef = some r)
    (hsel : w.selection = none) (hn : nodeById w.tree r = some n) :
    update_selection w =
      (if w.visible r then
        { w with selection := some r, currentItemRef := some r,
                 entityToSelect := none }
      else w) := by
  have hr : n.nid = r := nodeById_nid _ _ _ hn
  have hitem : update_selection_item w = some n := by
    unfold update_selection_item
    rw [hts, href]
    exact hn
  unfold update_selection
  rw [hitem]
  dsimp only
  rw [hr]
  by_cases hv : w.visible r = true
  · rw [if_pos hv, if_pos hv,
      setCurrentIndex_some_state w r n (by rw [hsel]; simp) hn, hr]
  · rw [if_neg hv, if_neg hv]

theorem update_selection_tracks (w : Widget) (r : Nat) (n : Node)
    (hts : w.entityToSelect = none) (href : w.currentItemRef = some r)
    (hsel : w.selection = none) (hn : nodeById w.tree r = some n) :
    SelTracks (update_selection w) r n ∧ (update_selection w).tree = w.tree := by
  rw [update_selection_ref_state w r n hts href hsel hn]
  by_cases hv : w.visible r = true
  · rw [if_pos hv]
    refine ⟨⟨by simp, by simp, by simpa using hn, ?_⟩, by simp⟩
    have hv' : Widget.visible
        { w with selection := some r, currentItemRef := some r,
                 entityToSelect := none } r = true := by
      simpa [Widget.visible] using hv
    simp [hv']
  · rw [if_neg hv]
    exact ⟨⟨hts, href, hn, by rw [hsel, if_neg hv]⟩, rfl⟩

theorem applyFilterChange_tracks (w : Widget) (r : Nat) (n : Node) (e : FilterChange)
    (hts : w.entityToSelect = none) (href : w.currentItemRef = some r)
    (hn : nodeById w.tree r = some n) :
    SelTracks (applyFilterChange w e) r n ∧ (applyFilterChange w e).tree = w.tree := by
  cases e with
  | search txt =>
    show SelTracks (on_search_changed w txt) r n ∧ (on_search_changed w txt).tree = w.tree
    unfold on_search_changed
    dsimp only
    have h := update_selection_tracks
      { w with selection := none, filterRegExp := update_filter_regexp txt } r n
      (by simpa using hts) (by simpa using href) (by simp) (by simpa using hn)
    exact ⟨h.1, h.2⟩
  | mineOnly b =>
    show SelTracks (on_my_tasks_only_toggled w b) r n ∧
      (on_my_tasks_only_toggled w b).tree = w.tree
    unfold on_my_tasks_only_toggled
    dsimp only
    have h := update_selection_tracks
      { w with selection := none, onlyMyTasks := b } r n
      (by simpa using hts) (by simpa using href) (by simp) (by simpa using hn)
    exact ⟨h.1, h.2⟩

theorem foldl_filterChange_tracks :
    ∀ (es : List FilterChange) (w : Widget) (r : Nat) (n : Node),
      SelTracks w r n →
      SelTracks (es.foldl applyFilterChange w) r n ∧
        (es.foldl applyFilterChange w).tree = w.tree
  | [], _, _, _, h => ⟨h, rfl⟩
  | e :: rest, w, r, n, h => by
    obtain ⟨h1, htree⟩ := applyFilterChange_tracks w r n e h.1 h.2.1 h.2.2.1
    obtain ⟨h2, htree2⟩ := foldl_filterChange_tracks rest (applyFilterChange w e) r n h1
    exact ⟨h2, htree2.trans htree⟩

/-! ### Claim theorems C1, C2, C3 -/

/-- **C1.** For every filter change (search-text edit or "my tasks only"
toggle): across any nonempty sequence of filter changes the widget keeps
the reference to the logically selected model item — hence to the same
entity, identified by type and id, independently of where the item sits in
the filtered tree — and the view's selection is exactly that item whenever
it is visible in the current filtered model, so it is restored as soon as a
filter change makes the item visible again. -/
theorem C1_filter_changes_preserve_selection
    (es : List FilterChange) (w : Widget) (r : Nat) (n : Node)
    (hts : w.entityToSelect = none) (href : w.currentItemRef = some r)
    (hn : nodeById w.tree r = some n) (hes : es ≠ []) :
    (es.foldl applyFilterChange w).tree = w.tree ∧
    (es.foldl applyFilterChange w).entityToSelect = none ∧
    (es.foldl applyFilterChange w).currentItemRef = some r ∧
    nodeById (es.foldl applyFilterChange w).tree r = some n ∧
    (es.foldl applyFilterChange w).selection =
      (if (es.foldl applyFilterChange w).visible r then some r else none) := by
  cases es with
  | nil => exact absurd rfl hes
  | cons e rest =>
    obtain ⟨h1, htree1⟩ := applyFilterChange_tracks w r n e hts href hn
    obtain ⟨h2, htree2⟩ := foldl_filterChange_tracks rest (applyFilterChange w e) r n h1
    exact ⟨htree2.trans htree1, h2.1, h2.2.1, h2.2.2.1, h2.2.2.2⟩

/-- Concrete run of C1: the selected Task item is hidden by searching
"zzz" and the selection is restored once the search is cleared. -/
theorem C1_witness :
    (([FilterChange.search "zzz", FilterChange.search ""]).foldl applyFilterChange
        egWsel).selection = some 3 := by
  have h := C1_filter_changes_preserve_selection
    [FilterChange.search "zzz", FilterChange.search ""] egWsel 3 egTaskN
    rfl rfl rfl (List.cons_ne_nil _ _)
  exact h.2.2.2.2.trans (by rfl)

/-- **C2.** In every widget state reachable from construction by any event
sequence, the pending-selection target and the last-known current item are
never both set: one of the two is always `none`. -/
theorem C2_pending_target_and_current_item_exclusive
    (tree : Node) (etype : String) (es : List Event) :
    (es.foldl step (init_widget tree etype)).entityToSelect = none ∨
      (es.foldl step (init_widget tree etype)).currentItemRef = none :=
  foldl_mutex es (init_widget tree etype) (init_widget_mutex tree etype)

theorem step_no_target (w : Widget) (e : Event)
    (h : w.entityToSelect = none) (hne : ∀ t i, e ≠ Event.selectEnt t i) :
    (step w e).entityToSelect = none := by
  cases e with
  | search txt =>
    show (on_search_changed w txt).entityToSelect = none
    unfold on_search_changed
    exact update_selection_target _ (by simpa using h)
  | mineToggle b =>
    show (on_my_tasks_only_toggled w b).entityToSelect = none
    unfold on_my_tasks_only_toggled
    exact update_selection_target _ (by simpa using h)
  | selectEnt t i => exact absurd rfl (hne t i)
  | userSelect sel => exact setCurrentIndex_target _ _ h
  | navigate tr =>
    show (match navigate_to w tr with | .ok w' => w' | .error _ => w).entityToSelect = none
    unfold navigate_to
    cases navRoot w tr with
    | error e => exact h
    | ok o =>
      cases o with
      | none => exact setCurrentIndex_target _ _ h
      | some item => exact setCurrentIndex_target _ _ h
  | rowsInserted p f l =>
    show (on_filter_model_rows_inserted w p f l).entityToSelect = none
    rw [(rows_inserted_expStep w p f l).target_eq]
    exact h
  | viewExpand t =>
    show (on_item_expanded { w with viewExpanded := insertNat t w.viewExpanded } t).entityToSelect = none
    obtain ⟨-, -, -, -, -, -, h6, -⟩ :=
      on_item_expanded_spec { w with viewExpanded := insertNat t w.viewExpanded } t
    rw [h6]
    simpa using h
  | viewCollapse t =>
    show (on_item_collapsed { w with viewExpanded := removeNat t w.viewExpanded } t).entityToSelect = none
    rw [(on_item_collapsed_fields _ t).1]
    simpa using h
  | modelChanged t =>
    show ({ w with tree := t } : Widget).entityToSelect = none
    simpa using h

theorem foldl_no_target :
    ∀ (es : List Event) (w : Widget), w.entityToSelect = none →
      (∀ e ∈ es, ∀ t i, e ≠ Event.selectEnt t i) →
      (es.foldl step w).entityToSelect = none
  | [], _, h, _ => h
  | e :: rest, w, h, hall =>
    foldl_no_target rest (step w e)
      (step_no_target w e h (hall e (List.mem_cons_self e rest)))
      (fun e' he' => hall e' (List.mem_cons_of_mem _ he'))

/-- `_on_selection_changed` leaves the model, the filter settings and the
selection untouched (it only updates the tracking fields). -/
theorem on_selection_changed_cfg (w : Widget) (l : List Nat) :
    (on_selection_changed w l).tree = w.tree ∧
      (on_selection_changed w l).filterRegExp = w.filterRegExp ∧
      (on_selection_changed w l).onlyMyTasks = w.onlyMyTasks := by
  unfold on_selection_changed
  cases hl : (match l with | [i] => nodeById w.tree i | _ => none : Option Node) with
  | none => simp [hl]
  | some n => simp [hl]

theorem setCurrentIndex_cfg (w : Widget) (target : Option Nat) :
    (setCurrentIndex w target).tree = w.tree ∧
      (setCurrentIndex w target).filterRegExp = w.filterRegExp ∧
      (setCurrentIndex w target).onlyMyTasks = w.onlyMyTasks := by
  unfold setCurrentIndex
  split
  · exact ⟨rfl, rfl, rfl⟩
  · obtain ⟨h1, h2, h3⟩ := on_selection_changed_cfg { w with selection := target } _
    exact ⟨by rw [h1], by rw [h2], by rw [h3]⟩

theorem update_selection_cfg (w : Widget) :
    (update_selection w).tree = w.tree ∧
      (update_selection w).filterRegExp = w.filterRegExp ∧
      (update_selection w).onlyMyTasks = w.onlyMyTasks := by
  rcases update_selection_cases w with hc | ⟨x, hc⟩
  · rw [hc]
    exact ⟨rfl, rfl, rfl⟩
  · rw [hc]
    exact setCurrentIndex_cfg _ _

/-- Visibility only depends on the model and the filter settings. -/
theorem visible_congr {w w' : Widget} (h1 : w'.tree = w.tree)
    (h2 : w'.filterRegExp = w.filterRegExp) (h3 : w'.onlyMyTasks = w.onlyMyTasks)
    (x : Nat) : w'.visible x = w.visible x := by
  unfold Widget.visible
  rw [h1, h2, h3]

/-- `select_entity` on an entity with no matching item yet: the target is
recorded and the reconciliation inside the call leaves it pending. -/
theorem select_entity_absent (w : Widget) (t : String) (i : Int)
    (hty : w.entityType = t) (habs : item_from_entity w.tree t i = none) :
    select_entity w t i =
      { w with entityToSelect := some (t, i), selection := none,
               currentItemRef := none } := by
  have hw3 : select_entity w t i =
      update_selection { w with entityToSelect := some (t, i), selection := none,
                                currentItemRef := none } := by
    unfold select_entity
    rfl
  rw [hw3]
  set w3 : Widget := { w with entityToSelect := some (t, i), selection := none,
                              currentItemRef := none } with hw3def
  have hitem : update_selection_item w3 = none := by
    unfold update_selection_item
    have h1 : w3.entityToSelect = some (t, i) := rfl
    rw [h1]
    dsimp only
    rw [if_pos (show w3.entityType = (t, i).1 from hty)]
    exact habs
  unfold update_selection
  rw [hitem]

/-- With a pending target whose matching item exists and is visible, on a
reset selection `_update_selection` selects it, records it as current and —
through the fired `_on_selection_changed` — clears the target. -/
theorem update_selection_pending (w : Widget) (t : String) (i : Int) (n : Node)
    (hts : w.entityToSelect = some (t, i)) (hty : w.entityType = t)
    (hfind : item_from_entity w.tree t i = some n) (hsel : w.selection = none)
    (hvis : w.visible n.nid = true) :
    update_selection w =
      { w with selection := some n.nid, currentItemRef := some n.nid,
               entityToSelect := none } := by
  have hns := item_from_entity_nodeById _ _ _ _ hfind
  obtain ⟨m, hm⟩ := Option.isSome_iff_exists.mp hns
  have hmn : m.nid = n.nid := nodeById_nid _ _ _ hm
  have hitem : update_selection_item w = some n := by
    unfold update_selection_item
    rw [hts]
    dsimp only
    rw [if_pos (show w.entityType = (t, i).1 from hty)]
    exact hfind
  unfold update_selection
  rw [hitem]
  dsimp only
  rw [if_pos hvis]
  rw [setCurrentIndex_some_state w n.nid m (by rw [hsel]; simp) hm, hmn]

/-- The model-population events leave the pending target and the model's
entity type untouched. -/
theorem step_model_update (w : Widget) (e : Event) (h : ModelUpdate e) :
    (step w e).entityToSelect = w.entityToSelect ∧
      (step w e).entityType = w.entityType := by
  cases e with
  | search txt => exact False.elim h
  | mineToggle b => exact False.elim h
  | selectEnt t i => exact False.elim h
  | userSelect s => exact False.elim h
  | navigate tr => exact False.elim h
  | rowsInserted p f l =>
    have hs := rows_inserted_expStep w p f l
    exact ⟨hs.target_eq, hs.entityType_eq⟩
  | viewExpand t =>
    obtain ⟨-, -, h2, -, -, -, h6, -⟩ :=
      on_item_expanded_spec { w with viewExpanded := insertNat t w.viewExpanded } t
    refine ⟨?_, ?_⟩
    · show (on_item_expanded { w with viewExpanded := insertNat t w.viewExpanded }
        t).entityToSelect = w.entityToSelect
      rw [h6]
    · show (on_item_expanded { w with viewExpanded := insertNat t w.viewExpanded }
        t).entityType = w.entityType
      rw [h2]
  | viewCollapse t =>
    refine ⟨?_, ?_⟩
    · show (on_item_collapsed { w with viewExpanded := removeNat t w.viewExpanded }
        t).entityToSelect = w.entityToSelect
      rw [(on_item_collapsed_fields _ t).1]
    · show (on_item_collapsed { w with viewExpanded := removeNat t w.viewExpanded }
        t).entityType = w.entityType
      unfold on_item_collapsed
      cases nodeById ({ w with viewExpanded := removeNat t w.viewExpanded } : Widget).tree t
        <;> simp
  | modelChanged t => exact ⟨rfl, rfl⟩

theorem foldl_model_update :
    ∀ (us : List Event) (w : Widget), (∀ e ∈ us, ModelUpdate e) →
      (us.foldl step w).entityToSelect = w.entityToSelect ∧
        (us.foldl step w).entityType = w.entityType
  | [], _, _ => ⟨rfl, rfl⟩
  | e :: rest, w, hall => by
    obtain ⟨h1, h2⟩ := step_model_update w e (hall e (List.mem_cons_self e rest))
    obtain ⟨h3, h4⟩ := foldl_model_update rest (step w e)
      (fun e' he' => hall e' (List.mem_cons_of_mem _ he'))
    exact ⟨h3.trans h1, h4.trans h2⟩

/-- A filter-change reconciliation run with a pending target whose matching
item now exists and is visible under the new filter consumes the target:
the item is selected and recorded as current, the target is cleared. -/
theorem applyFilterChange_consumes (w2 : Widget) (t : String) (i : Int) (n : Node)
    (e : FilterChange)
    (hts : w2.entityToSelect = some (t, i)) (hty : w2.entityType = t)
    (hfind : item_from_entity w2.tree t i = some n)
    (hvis : (applyFilterChange w2 e).visible n.nid = true) :
    (applyFilterChange w2 e).selection = some n.nid ∧
      (applyFilterChange w2 e).entityToSelect = none ∧
      (applyFilterChange w2 e).currentItemRef = some n.nid := by
  cases e with
  | search txt =>
    have hw : applyFilterChange w2 (FilterChange.search txt) =
        update_selection { w2 with selection := none,
                                   filterRegExp := update_filter_regexp txt } := by
      show on_search_changed w2 txt = _
      unfold on_search_changed
      rfl
    rw [hw] at hvis ⊢
    set W : Widget := ({ w2 with selection := none, filterRegExp := update_filter_regexp txt } : Widget) with hWdef
    obtain ⟨hc1, hc2, hc3⟩ := update_selection_cfg W
    rw [visible_congr hc1 hc2 hc3] at hvis
    rw [update_selection_pending W t i n
      (show W.entityToSelect = some (t, i) from hts)
      (show W.entityType = t from hty)
      (show item_from_entity W.tree t i = some n from hfind)
      (show W.selection = none from rfl) hvis]
    exact ⟨rfl, rfl, rfl⟩
  | mineOnly b =>
    have hw : applyFilterChange w2 (FilterChange.mineOnly b) =
        update_selection { w2 with selection := none, onlyMyTasks := b } := by
      show on_my_tasks_only_toggled w2 b = _
      unfold on_my_tasks_only_toggled
      rfl
    rw [hw] at hvis ⊢
    set W : Widget := ({ w2 with selection := none, onlyMyTasks := b } : Widget) with hWdef
    obtain ⟨hc1, hc2, hc3⟩ := update_selection_cfg W
    rw [visible_congr hc1 hc2 hc3] at hvis
    rw [update_selection_pending W t i n
      (show W.entityToSelect = some (t, i) from hts)
      (show W.entityType = t from hty)
      (show item_from_entity W.tree t i = some n from hfind)
      (show W.selection = none from rfl) hvis]
    exact ⟨rfl, rfl, rfl⟩

/-- **C3.** A pending target recorded by `select_entity(type, id)` while no
matching item exists in the model yet stays recorded across asynchronous
model updates (model changes, row insertions, expansions), and is consumed
by the first reconciliation that finds a matching visible item: that item
becomes the selection and the current item, the target is cleared, and it
stays cleared across any further events that are not a new `select_entity`
call — it is never re-applied on later model updates. -/
theorem C3_pending_target_consumed
    (w : Widget) (t : String) (i : Int)
    (hty : w.entityType = t)
    (habsent : item_from_entity w.tree t i = none)
    (us : List Event) (hus : ∀ e ∈ us, ModelUpdate e)
    (e : FilterChange) (n : Node)
    (hfind : item_from_entity (us.foldl step (select_entity w t i)).tree t i = some n)
    (hvis : (applyFilterChange (us.foldl step (select_entity w t i)) e).visible n.nid
      = true) :
    (select_entity w t i).entityToSelect = some (t, i) ∧
    (us.foldl step (select_entity w t i)).entityToSelect = some (t, i) ∧
    (applyFilterChange (us.foldl step (select_entity w t i)) e).selection
      = some n.nid ∧
    (applyFilterChange (us.foldl step (select_entity w t i)) e).entityToSelect
      = none ∧
    (applyFilterChange (us.foldl step (select_entity w t i)) e).currentItemRef
      = some n.nid ∧
    ∀ es : List Event, (∀ e' ∈ es, ∀ t' i', e' ≠ Event.selectEnt t' i') →
      (es.foldl step
        (applyFilterChange (us.foldl step (select_entity w t i)) e)).entityToSelect
        = none := by
  have hw1 := select_entity_absent w t i hty habsent
  have c1 : (select_entity w t i).entityToSelect = some (t, i) := by rw [hw1]
  obtain ⟨hf1, hf2⟩ := foldl_model_update us (select_entity w t i) hus
  have c2 : (us.foldl step (select_entity w t i)).entityToSelect = some (t, i) :=
    hf1.trans c1
  have hty2 : (us.foldl step (select_entity w t i)).entityType = t := by
    rw [hf2, hw1]
    exact hty
  obtain ⟨c3, c4, c5⟩ := applyFilterChange_consumes _ t i n e c2 hty2 hfind hvis
  exact ⟨c1, c2, c3, c4, c5, fun es hes => foldl_no_target es _ c4 hes⟩

/-- Concrete deferred run of C3: Task 9 is requested while the model holds
only the childless Shot row, so the target stays pending; the model then
loads the full hierarchy and announces the inserted rows; the next search
reconciliation selects the Task item and consumes the target. -/
theorem C3_witness :
    (select_entity egW0 "Task" 9).entityToSelect = some ("Task", 9) ∧
    (applyFilterChange (([Event.modelChanged egRoot,
        Event.rowsInserted none 0 1]).foldl step (select_entity egW0 "Task" 9))
      (FilterChange.search "")).selection = some 3 ∧
    (applyFilterChange (([Event.modelChanged egRoot,
        Event.rowsInserted none 0 1]).foldl step (select_entity egW0 "Task" 9))
      (FilterChange.search "")).entityToSelect = none := by
  have h := C3_pending_target_consumed egW0 "Task" 9 rfl rfl
    [Event.modelChanged egRoot, Event.rowsInserted none 0 1]
    (by
      intro e' he'
      rcases List.mem_cons.mp he' with rfl | h2
      · trivial
      · rcases List.mem_cons.mp h2 with rfl | h3
        · trivial
        · simp at h3)
    (FilterChange.search "") egTaskN rfl rfl
  exact ⟨h.1, h.2.2.1, h.2.2.2.1⟩

/-! ### Path and breadcrumb lemmas (claims C4, C5) -/

theorem build_trail_eq (w : Widget) (t : Nat) (p : List Node)
    (hsel : w.selection = some t) (hp : pathToList w.tree.children t = some p) :
    build_breadcrumb_trail w = p.map crumbOf := by
  unfold build_breadcrumb_trail
  rw [hsel]
  dsimp only
  rw [hp]
  dsimp only
  rw [List.map_reverse, List.reverse_reverse]

mutual
theorem pathToNode_spec : ∀ (n : Node) (t : Nat) (p : List Node),
    pathToNode n t = some p →
    p.head? = some n ∧ (∃ q mm, p = q ++ [mm] ∧ Node.nid mm = t) ∧
      List.Chain' (fun a b => b ∈ a.children) p
  | .mk i l e m cs, t, p, h => by
    unfold pathToNode at h
    split at h
    · rename_i hit
      cases h
      exact ⟨rfl, ⟨[], Node.mk i l e m cs, rfl, hit⟩, List.chain'_singleton _⟩
    · rename_i hit
      cases hpl : pathToList cs t with
      | none => rw [hpl] at h; simp at h
      | some p' =>
        rw [hpl] at h
        simp only [Option.map_some'] at h
        cases h
        obtain ⟨⟨c, hc, hhead⟩, ⟨q, mm, hqm, hmt⟩, hchain⟩ := pathToList_spec cs t p' hpl
        refine ⟨rfl, ⟨Node.mk i l e m cs :: q, mm, by rw [hqm]; simp, hmt⟩, ?_⟩
        rw [List.chain'_cons']
        constructor
        · intro x hx
          rw [hhead] at hx
          cases hx
          exact hc
        · exact hchain
theorem pathToList_spec : ∀ (cs : List Node) (t : Nat) (p : List Node),
    pathToList cs t = some p →
    (∃ c ∈ cs, p.head? = some c) ∧ (∃ q mm, p = q ++ [mm] ∧ Node.nid mm = t) ∧
      List.Chain' (fun a b => b ∈ a.children) p
  | [], t, p, h => by simp [pathToList] at h
  | c :: rest, t, p, h => by
    unfold pathToList at h
    split at h
    · rename_i heq
      cases h
      obtain ⟨hhead, hlast, hchain⟩ := pathToNode_spec c t _ heq
      exact ⟨⟨c, List.mem_cons_self _ _, hhead⟩, hlast, hchain⟩
    · obtain ⟨⟨c', hc', hhead⟩, hlast, hchain⟩ := pathToList_spec rest t p h
      exact ⟨⟨c', List.mem_cons_of_mem _ hc', hhead⟩, hlast, hchain⟩
end

/-- **C4 (amended).** For every selected item, the breadcrumb trail is an
ordered sequence of crumbs from the root-level ancestor down to the selected
item, one crumb per item on the source path: entity items contribute an
entity crumb labelled `<b>type</b> name` (the `content` field for a Task),
plain items contribute their model text.  Step/Task pairs are *not*
collapsed in the trail (collapsing happens only in the selection details'
children, `_get_entity_details`). -/
theorem C4_amended_breadcrumb_trail (w : Widget) (t : Nat) (p : List Node)
    (hsel : w.selection = some t) (hp : pathToList w.tree.children t = some p) :
    build_breadcrumb_trail w = p.map crumbOf ∧
    (∃ c ∈ w.tree.children, p.head? = some c) ∧
    (∃ q mm, p = q ++ [mm] ∧ Node.nid mm = t) ∧
    List.Chain' (fun a b => b ∈ a.children) p := by
  obtain ⟨h1, h2, h3⟩ := pathToList_spec _ _ _ hp
  exact ⟨build_trail_eq w t p hsel hp, h1, h2, h3⟩

/-- Concrete run of the amended C4 on the fixture selection. -/
theorem C4_witness :
    build_breadcrumb_trail egWsel = [egShotN, egStepN, egTaskN].map crumbOf :=
  (C4_amended_breadcrumb_trail egWsel 3 [egShotN, egStepN, egTaskN] rfl rfl).1

/-- **C4 (counterexample).** A Task item that is the child of a Step item:
the claim says the pair is collapsed into one composite crumb, but the
trail produced by the code contains a separate Step crumb and a separate
Task crumb (three crumbs for the three-deep selection, none composite). -/
theorem C4_counterexample :
    egTaskN ∈ egStepN.children ∧
    (egStepN.entity).map Entity.etype = some "Step" ∧
    (egTaskN.entity).map Entity.etype = some "Task" ∧
    build_breadcrumb_trail egWsel =
      [Crumb.entityCrumb "<b>Shot</b> shot1" egShot,
       Crumb.entityCrumb "<b>Step</b> Rig" egStepEnt,
       Crumb.entityCrumb "<b>Task</b> Anim" egTaskEnt] :=
  ⟨List.mem_cons_self _ _, rfl, rfl, rfl⟩

/-- When every step of the walk finds the path item first and visible, the
`navigate_to` walk descends exactly along the path and returns its last
item. -/
theorem navWalk_follows (w : Widget) :
    ∀ (p : List Node) (cur : Node), NavFollows w cur p →
      navWalk w cur (p.map crumbOf) = Except.ok (p.getLastD cur)
  | [], cur, _ => rfl
  | b :: rest, cur, h => by
    simp only [NavFollows] at h
    obtain ⟨h1, h2, h3⟩ := h
    unfold navWalk
    dsimp only [List.map]
    rw [h1]
    dsimp only
    rw [if_pos h2]
    rw [navWalk_follows w rest b h3, List.getLastD_cons]

/-- **C5.** A breadcrumb trail captured by `get_selection` from the current
selection is restored by `navigate_to`: when along the selected item's
source path each item is the first child matching its own crumb (entity
crumbs by type and id, plain crumbs by label) and every item on the path is
visible in the filtered model, the walk reaches exactly the selected item
and selects it. -/
theorem C5_navigate_to_restores_selection (w : Widget) (t : Nat) (p : List Node)
    (hsel : w.selection = some t) (hp : pathToList w.tree.children t = some p)
    (hf : NavFollows w w.tree p) :
    ∃ w', navigate_to w (get_selection w).2 = Except.ok w' ∧ w'.selection = some t := by
  have htrail : (get_selection w).2 = p.map crumbOf := by
    unfold get_selection
    rw [hsel]
    exact build_trail_eq w t p hsel hp
  obtain ⟨⟨c, hc, hhead⟩, ⟨q, mm, hqm, hmt⟩, hchain⟩ := pathToList_spec _ _ _ hp
  cases p with
  | nil => simp at hhead
  | cons b rest =>
    simp only [NavFollows] at hf
    obtain ⟨h1, h2, h3⟩ := hf
    have hlast : rest.getLastD b = mm := by
      have h4 : (b :: rest).getLast? = some mm := by
        rw [hqm]
        exact List.getLast?_concat _
      have h5 : (b :: rest).getLastD b = rest.getLastD b := List.getLastD_cons _ _ _
      rw [← h5, List.getLastD_eq_getLast?, h4]
      rfl
    have hroot : navRoot w ((b :: rest).map crumbOf) = Except.ok (some mm) := by
      unfold navRoot
      dsimp only [List.map]
      rw [h1]
      dsimp only
      rw [if_pos h2, navWalk_follows w rest b h3]
      rw [Except.map, hlast]
    rw [htrail]
    unfold navigate_to
    rw [hroot]
    refine ⟨setCurrentIndex w (some (Node.nid mm)), rfl, ?_⟩
    rw [hmt]
    unfold setCurrentIndex
    rw [if_pos hsel.symm]
    exact hsel

/-- Concrete run of C5: the trail captured from the selected Task is
navigated back to the very same selection. -/
theorem C5_witness :
    ∃ w', navigate_to egWsel (get_selection egWsel).2 = Except.ok w' ∧
      w'.selection = some 3 := by
  refine C5_navigate_to_restores_selection egWsel 3 [egShotN, egStepN, egTaskN] rfl rfl ?_
  simp only [NavFollows]
  exact ⟨rfl, rfl, rfl, rfl, rfl, rfl, trivial⟩

/-- **C6 (the code can raise).** `navigate_to` dereferences
`src_model.get_entity(child_item)` without a `None` check while matching an
entity crumb: on a model whose root has an entity-less grouping row next to
the target, restoring a trail raises a `TypeError` instead of silently
doing nothing. -/
theorem C6_navigate_to_raises :
    navigate_to egW [Crumb.entityCrumb "<b>Task</b> Anim" egTaskEnt] =
      Except.error "TypeError: 'NoneType' object is not subscriptable" := rfl

/-- **C7 (counterexample).** The search text is *not* interpreted as a
regular expression: the filter built by `_update_filter` from the text `"."`
rejects the label `"x"`, while the same `QRegExp` under regular-expression
interpretation accepts it (`.` matches any character). -/
theorem C7_counterexample :
    qregexpAccepts (update_filter_regexp ".") "x" = false ∧
      qregexpAccepts { pattern := ".", caseInsensitive := true,
                       syn := PatSyn.regExp } "x" = true :=
  ⟨rfl, rfl⟩

/-- **C7 (amended).** The text-search filter wraps the search text in a
`QRegExp` with `FixedString` pattern syntax and case-insensitive matching,
so a node's text is matched by case-insensitive literal substring search,
not by regular-expression interpretation. -/
theorem C7_amended_fixed_string_filter (txt s : String) :
    (update_filter_regexp txt).syn = PatSyn.fixedString ∧
    (update_filter_regexp txt).caseInsensitive = true ∧
    (update_filter_regexp txt).pattern = txt ∧
    qregexpAccepts (update_filter_regexp txt) s =
      substrSearch (strLower txt) (strLower s) :=
  ⟨rfl, rfl, rfl, rfl⟩

/-! ### Re-expansion of inserted rows (claims C8, C9) -/

theorem expandView_mem_view (w : Widget) (n : Node) :
    n.nid ∈ (expandView w n).viewExpanded := by
  unfold expandView
  split
  · rename_i h
    exact (contains_iff_mem _ _).mp h
  · obtain ⟨-, -, -, -, -, -, -, -, -, -, h10⟩ :=
      on_item_expanded_spec { w with viewExpanded := n.nid :: w.viewExpanded } n.nid
    rw [h10]
    simp

mutual
theorem fix_state_expands :
    ∀ (re : QRegExp) (om : Bool) (root : Node) (w : Widget) (b : Bool) (n : Node)
      (m : Node), m ∈ subtreeVisible re om root n → m.nid ∈ w.expandedItems →
      m.nid ∈ (fix_expanded_state_r re om root w b n).viewExpanded
  | re, om, root, w, b, .mk i l e mm cs, m, hmem, hexp => by
    unfold subtreeVisible at hmem
    unfold fix_expanded_state_r
    dsimp only
    rcases List.mem_cons.mp hmem with rfl | hmem'
    · have h1 := auto_branch_expStep w i b
      have hc : (if b then (if w.autoExpandedRootItems.contains i then w
          else { w with autoExpandedRootItems := insertNat i w.autoExpandedRootItems,
                        expandedItems := insertNat i w.expandedItems })
          else w).expandedItems.contains i = true := by
        rw [contains_iff_mem]
        exact h1.exp_mono _ hexp
      rw [if_pos hc]
      refine (fix_list_expStep re om root _ cs).view_mono _ ?_
      exact expandView_mem_view _ _
    · have h12 : ExpStep w (if (if b then (if w.autoExpandedRootItems.contains i then w
          else { w with autoExpandedRootItems := insertNat i w.autoExpandedRootItems,
                        expandedItems := insertNat i w.expandedItems })
          else w).expandedItems.contains i then
            expandView (if b then (if w.autoExpandedRootItems.contains i then w
              else { w with autoExpandedRootItems := insertNat i w.autoExpandedRootItems,
                            expandedItems := insertNat i w.expandedItems })
              else w) (Node.mk i l e mm cs)
          else (if b then (if w.autoExpandedRootItems.contains i then w
            else { w with autoExpandedRootItems := insertNat i w.autoExpandedRootItems,
                          expandedItems := insertNat i w.expandedItems })
            else w)) :=
        expStep_trans (auto_branch_expStep w i b) (exp_branch_expStep _ i l e mm cs)
      exact fix_list_expands re om root _ cs m hmem' (h12.exp_mono _ hexp)
theorem fix_list_expands :
    ∀ (re : QRegExp) (om : Bool) (root : Node) (w : Widget) (cs : List Node)
      (m : Node), m ∈ subtreeVisibleList re om root cs → m.nid ∈ w.expandedItems →
      m.nid ∈ (fix_expanded_list re om root w cs).viewExpanded
  | re, om, root, w, [], m, hmem, hexp => by
    unfold subtreeVisibleList at hmem
    simp at hmem
  | re, om, root, w, c :: rest, m, hmem, hexp => by
    unfold subtreeVisibleList at hmem
    unfold fix_expanded_list
    dsimp only
    rcases List.mem_append.mp hmem with hl | hr
    · by_cases hv : isVisibleIn re om root c.nid = true
      · rw [if_pos hv] at hl ⊢
        exact (fix_list_expStep re om root _ rest).view_mono _
          (fix_state_expands re om root w false c m hl hexp)
      · rw [if_neg hv] at hl
        simp at hl
    · by_cases hv : isVisibleIn re om root c.nid = true
      · rw [if_pos hv]
        exact fix_list_expands re om root _ rest m hr
          ((fix_state_expStep re om root w false c).exp_mono _ hexp)
      · rw [if_neg hv]
        exact fix_list_expands re om root w rest m hr hexp
end

theorem foldl_fix_expands (re : QRegExp) (om : Bool) (root : Node) (b : Bool) :
    ∀ (rows : List Node) (acc : Widget) (m : Node),
      m ∈ subtreeVisibleList re om root rows → m.nid ∈ acc.expandedItems →
      m.nid ∈ (rows.foldl (fun a r => fix_expanded_state_r re om root a b r)
        acc).viewExpanded
  | [], acc, m, hmem, _ => by
    unfold subtreeVisibleList at hmem
    simp at hmem
  | r :: rest, acc, m, hmem, hexp => by
    unfold subtreeVisibleList at hmem
    rcases List.mem_append.mp hmem with hl | hr
    · by_cases hv : isVisibleIn re om root r.nid = true
      · rw [if_pos hv] at hl
        exact (foldl_expStep _ (fun a rr => fix_state_expStep re om root a b rr)
            rest (fix_expanded_state_r re om root acc b r)).view_mono _
          (fix_state_expands re om root acc b r m hl hexp)
      · rw [if_neg hv] at hl
        simp at hl
    · exact foldl_fix_expands re om root b rest _ m hr
        ((fix_state_expStep re om root acc b r).exp_mono _ hexp)

theorem parent_expand_expStep (w : Widget) (parent : Option Nat) :
    ExpStep w (match parent with
      | some p =>
        match nodeById w.tree p with
        | some item => if w.expandedItems.contains item.nid then expandView w item else w
        | none => w
      | none => w) := by
  cases parent with
  | none => exact expStep_refl w
  | some p =>
    dsimp only
    cases h : nodeById w.tree p with
    | none => exact expStep_refl w
    | some item =>
      dsimp only
      split
      · rename_i hc
        exact expandView_expStep _ _ (Or.inl ((contains_iff_mem _ _).mp hc))
      · exact expStep_refl w

/-- The rows-inserted handler re-expands every inserted row, and recursively
every visible descendant, whose reference is in the expanded set. -/
theorem rows_inserted_expands (w : Widget) (parent : Option Nat) (first last : Nat)
    (m : Node)
    (hmem : m ∈ subtreeVisibleList w.filterRegExp w.onlyMyTasks w.tree
      (insertedRows w parent first last))
    (hexp : m.nid ∈ w.expandedItems) :
    m.nid ∈ (on_filter_model_rows_inserted w parent first last).viewExpanded := by
  unfold on_filter_model_rows_inserted
  dsimp only
  exact foldl_fix_expands w.filterRegExp w.onlyMyTasks w.tree parent.isNone
    (insertedRows w parent first last) _ m hmem
    ((parent_expand_expStep w parent).exp_mono _ hexp)

/-- **C8.** The expanded-node set is maintained by the expand/collapse
handlers — expanding a row adds the resolved item's reference to the set,
collapsing removes it — and whenever the filter model inserts rows, every
inserted row, and recursively every visible descendant of one, whose
reference is in the set is re-expanded in the view. -/
theorem C8_expanded_set_maintained_and_reapplied (w : Widget) :
    (∀ t, (nodeById w.tree t).isSome = true →
      t ∈ (on_item_expanded w t).expandedItems) ∧
    (∀ t, (nodeById w.tree t).isSome = true →
      t ∉ (on_item_collapsed w t).expandedItems) ∧
    (∀ (parent : Option Nat) (first last : Nat) (m : Node),
      m ∈ subtreeVisibleList w.filterRegExp w.onlyMyTasks w.tree
        (insertedRows w parent first last) →
      m.nid ∈ w.expandedItems →
      m.nid ∈ (on_filter_model_rows_inserted w parent first last).viewExpanded) := by
  refine ⟨?_, ?_, fun parent first last m hmem hexp =>
    rows_inserted_expands w parent first last m hmem hexp⟩
  · intro t ht
    obtain ⟨item, hi⟩ := Option.isSome_iff_exists.mp ht
    have := nodeById_nid _ _ _ hi
    unfold on_item_expanded
    rw [hi]
    simp only
    exact mem_insertNat.mpr (Or.inl (by rw [this]))
  · intro t ht
    obtain ⟨item, hi⟩ := Option.isSome_iff_exists.mp ht
    have hit := nodeById_nid _ _ _ hi
    unfold on_item_collapsed
    rw [hi]
    simp only
    intro hc
    unfold removeNat at hc
    have := List.mem_filter.mp hc
    rw [hit] at this
    simp at this

/-- Concrete run of C8: after a refilter reset the view, the rows-inserted
handler re-expands the tracked Step row. -/
theorem C8_witness :
    (2 : Nat) ∈ (on_filter_model_rows_inserted egW8 none 0 1).viewExpanded := by
  refine (C8_expanded_set_maintained_and_reapplied egW8).2.2 none 0 1 egStepN ?_ ?_
  · exact List.Mem.tail _ (List.Mem.head _)
  · exact List.Mem.head _

/-- **C9.** The one-time automatic root expansion is never repeated: for a
root reference already in the auto-expanded-root set (and, after the user
collapsed it, no longer in the expanded set), neither `_expand_root_rows`
nor the rows-inserted handler puts it back into the expanded set or changes
whether it is expanded in the view. -/
theorem C9_auto_expansion_at_most_once (w : Widget) (t : Nat)
    (hauto : t ∈ w.autoExpandedRootItems) (hexp : t ∉ w.expandedItems) :
    (t ∉ (expand_root_rows w).expandedItems ∧
      t ∈ (expand_root_rows w).autoExpandedRootItems ∧
      (t ∈ (expand_root_rows w).viewExpanded ↔ t ∈ w.viewExpanded)) ∧
    ∀ (parent : Option Nat) (first last : Nat),
      t ∉ (on_filter_model_rows_inserted w parent first last).expandedItems ∧
      (t ∈ (on_filter_model_rows_inserted w parent first last).viewExpanded ↔
        t ∈ w.viewExpanded) := by
  have main : ∀ w' : Widget, ExpStep w w' →
      t ∉ w'.expandedItems ∧ t ∈ w'.autoExpandedRootItems ∧
        (t ∈ w'.viewExpanded ↔ t ∈ w.viewExpanded) := by
    intro w' hs
    refine ⟨?_, hs.auto_mono _ hauto, ?_, ?_⟩
    · intro hc
      rcases hs.exp_new _ hc with h | h
      · exact hexp h
      · exact h hauto
    · intro hc
      rcases hs.view_new _ hc with h | h | h
      · exact h
      · exact absurd h hexp
      · exact absurd hauto h
    · exact hs.view_mono _
  refine ⟨main _ (expand_root_rows_expStep w), fun parent first last => ?_⟩
  have h := main _ (rows_inserted_expStep w parent first last)
  exact ⟨h.1, h.2.2⟩

/-- Concrete run of C9: the Shot root was auto-expanded once and then
collapsed by the user; a top-level row insertion does not expand it again. -/
theorem C9_witness :
    (1 : Nat) ∉ (on_filter_model_rows_inserted egW9 none 0 1).expandedItems ∧
      ((1 : Nat) ∈ (on_filter_model_rows_inserted egW9 none 0 1).viewExpanded ↔
        (1 : Nat) ∈ egW9.viewExpanded) := by
  have h := C9_auto_expansion_at_most_once egW9 1 (by decide) (by decide)
  exact h.2 none 0 1

/-- **C10.** `create_new_task` is emitted only when exactly one item is
selected, it resolves to an entity, and the entity is not a Step; for a
Task the payload is the Task's linked `entity` field with its `step` field
(suppressed when the Task has no linked entity), otherwise the selected
entity itself with step `None`. -/
theorem C10_create_new_task_conditions (w : Widget) :
    (get_selected_item w = none → on_new_task w = none) ∧
    (∀ n : Node, get_selected_item w = some n →
      (n.entity = none → on_new_task w = none) ∧
      (∀ e : Entity, n.entity = some e →
        (e.etype = "Step" → on_new_task w = none) ∧
        (e.etype = "Task" → on_new_task w = e.link.map (fun lk => (lk, e.step))) ∧
        (e.etype ≠ "Step" → e.etype ≠ "Task" → on_new_task w = some (e, none)))) := by
  constructor
  · intro h0
    unfold get_selected_item at h0
    unfold on_new_task
    cases hs : w.selection with
    | none => rfl
    | some t =>
      rw [hs] at h0
      simp only [Option.some_bind] at h0
      dsimp only
      rw [h0]
  · intro n hn
    unfold get_selected_item at hn
    cases hs : w.selection with
    | none => rw [hs] at hn; simp at hn
    | some t =>
      rw [hs] at hn
      simp only [Option.some_bind] at hn
      constructor
      · intro he
        unfold on_new_task
        rw [hs]
        dsimp only
        rw [hn]
        dsimp only
        rw [he]
      · intro e he
        refine ⟨?_, ?_, ?_⟩
        · intro hstep
          unfold on_new_task
          rw [hs]
          dsimp only
          rw [hn]
          dsimp only
          rw [he]
          dsimp only
          rw [if_pos hstep]
        · intro htask
          unfold on_new_task
          rw [hs]
          dsimp only
          rw [hn]
          dsimp only
          rw [he]
          dsimp only
          rw [if_neg (show ¬e.etype = "Step" by rw [htask]; decide), if_pos htask]
          cases e.link with
          | none => rfl
          | some lk => rfl
        · intro hns hnt
          unfold on_new_task
          rw [hs]
          dsimp only
          rw [hn]
          dsimp only
          rw [he]
          dsimp only
          rw [if_neg hns, if_neg hnt]

/-- Concrete run of C10: with the Task selected, the emitted payload is the
Task's linked Shot together with its Step. -/
theorem C10_witness : on_new_task egWsel = some (egShot, some egStepEnt) := by
  have h := ((C10_create_new_task_conditions egWsel).2 egTaskN rfl).2 egTaskEnt rfl
  exact (h.2.1 rfl).trans rfl
